import Mathlib

/-!
Shallow embedding of the ECDSA signing/verification core of the `jwtk`
repository (files `src/ecdsa.rs` and `src/some.rs`), together with proofs
about it.

Bytes are modelled as `List Nat` (big-endian order, one element per byte).
OpenSSL primitives (key generation, PEM parsing, point construction, the
final structured-signature verification) are out of the repository's scope;
they are modelled as explicit oracle parameters, constrained only where the
repository relies on their documented contracts.  The pure logic of the
repository — algorithm/curve lookup tables, the fixed-length signature
codec inside `sign` and `es256_verify`, constructor dispatch, and JWK
construction — is translated statement by statement from the source.
-/

/-- Modelled from the spec: the error kind exposed by the library
(`Error` in `lib.rs`, which is not among the shown sources).  `Ssl`
stands for any error propagated unchanged from the OpenSSL primitive
library via `?`. -/
inductive Error where
  | UnsupportedOrInvalidKey
  | VerificationError
  | Ssl
  deriving DecidableEq, Repr

/-- OpenSSL numeric curve identifiers (`Nid`).  Only the numeric values of
the constants used by the repository matter. -/
def Nid : Type := Nat

instance : DecidableEq Nid := inferInstanceAs (DecidableEq Nat)

instance : Repr Nid := inferInstanceAs (Repr Nat)

/-- NID_X9_62_prime256v1 (P-256). -/
def Nid.X9_62_PRIME256V1 : Nid := (415 : Nat)

/-- NID_secp384r1 (P-384). -/
def Nid.SECP384R1 : Nid := (715 : Nat)

/-- NID_secp521r1 (P-521). -/
def Nid.SECP521R1 : Nid := (716 : Nat)

/-- NID_secp256k1 — a curve the repository does not support. -/
def Nid.SECP256K1 : Nid := (714 : Nat)

/-- Digest selection (`openssl::hash::MessageDigest`), as pure data. -/
inductive MessageDigest where
  | sha256
  | sha384
  | sha512
  deriving DecidableEq, Repr

/-- The `EcdsaAlgorithm` enum of `ecdsa.rs`. -/
inductive EcdsaAlgorithm where
  | ES256
  | ES384
  | ES512
  deriving DecidableEq, Repr

/-- `EcdsaAlgorithm::curve` (ecdsa.rs lines 23-30). -/
def EcdsaAlgorithm.curve : EcdsaAlgorithm → Nid
  | .ES256 => Nid.X9_62_PRIME256V1
  | .ES384 => Nid.SECP384R1
  | .ES512 => Nid.SECP521R1

/-- `EcdsaAlgorithm::from_curve` (ecdsa.rs lines 32-40). -/
def EcdsaAlgorithm.from_curve (curve : Nid) : Except Error EcdsaAlgorithm :=
  if curve = Nid.X9_62_PRIME256V1 then .ok .ES256
  else if curve = Nid.SECP384R1 then .ok .ES384
  else if curve = Nid.SECP521R1 then .ok .ES512
  else .error Error.UnsupportedOrInvalidKey

/-- `EcdsaAlgorithm::digest` (ecdsa.rs lines 42-49). -/
def EcdsaAlgorithm.digest : EcdsaAlgorithm → MessageDigest
  | .ES256 => .sha256
  | .ES384 => .sha384
  | .ES512 => .sha512

/-- `EcdsaAlgorithm::name` (ecdsa.rs lines 51-58). -/
def EcdsaAlgorithm.name : EcdsaAlgorithm → String
  | .ES256 => "ES256"
  | .ES384 => "ES384"
  | .ES512 => "ES512"

/-- `EcdsaAlgorithm::curve_name` (ecdsa.rs lines 60-67). -/
def EcdsaAlgorithm.curve_name : EcdsaAlgorithm → String
  | .ES256 => "P-256"
  | .ES384 => "P-384"
  | .ES512 => "P-521"

/-- `EcdsaAlgorithm::from_curve_name` (ecdsa.rs lines 69-77). -/
def EcdsaAlgorithm.from_curve_name (n : String) : Except Error EcdsaAlgorithm :=
  if n = "P-256" then .ok .ES256
  else if n = "P-384" then .ok .ES384
  else if n = "P-521" then .ok .ES512
  else .error Error.UnsupportedOrInvalidKey

/-- `EcdsaAlgorithm::sig_len` (ecdsa.rs lines 79-86). -/
def EcdsaAlgorithm.sig_len : EcdsaAlgorithm → Nat
  | .ES256 => 64
  | .ES384 => 96
  | .ES512 => 132

/-- OpenSSL `Id` constants for `PKey::id()` (numeric EVP_PKEY type ids). -/
def PKeyId.RSA : Nat := 6

/-- EVP_PKEY_EC. -/
def PKeyId.EC : Nat := 408

/-- EVP_PKEY_ED25519. -/
def PKeyId.ED25519 : Nat := 1087

/-- Abstraction of an OpenSSL `PKey` handle: the observations the
repository makes of it.  `id` is `pk.id()`; `curve_name` is
`pk.ec_key().group().curve_name()` (an `Option`, meaningful when the key is
an EC key); `check_ok` records whether `check_key()` succeeds. -/
structure PKeyModel where
  id : Nat
  curve_name : Option Nid
  check_ok : Bool
  deriving DecidableEq, Repr

/-- The `EcdsaPrivateKey` struct of ecdsa.rs: a wrapped key handle plus the
algorithm descriptor. -/
structure EcdsaPrivateKey where
  private_key : PKeyModel
  algorithm : EcdsaAlgorithm
  deriving DecidableEq, Repr

/-- The `EcdsaPublicKey` struct of ecdsa.rs. -/
structure EcdsaPublicKey where
  public_key : PKeyModel
  algorithm : EcdsaAlgorithm
  deriving DecidableEq, Repr

/-- `EcdsaPrivateKey::generate` (ecdsa.rs lines 96-102).  `gen` is the
OpenSSL `EcKey::generate` primitive, modelled as an oracle from the
requested curve to a key handle. -/
def EcdsaPrivateKey.generate (g : Nid → Except Error PKeyModel)
    (algorithm : EcdsaAlgorithm) : Except Error EcdsaPrivateKey :=
  match g algorithm.curve with
  | .error e => .error e
  | .ok pk => .ok { private_key := pk, algorithm := algorithm }

/-- `EcdsaPrivateKey::from_pkey` (ecdsa.rs lines 104-117).  `pk.ec_key()?`
fails (an OpenSSL error) when the handle is not an EC key; `check_key()?`
failure is likewise an OpenSSL error; a group with no curve name is
`UnsupportedOrInvalidKey`; then the algorithm is looked up from the curve. -/
def EcdsaPrivateKey.from_pkey (pk : PKeyModel) : Except Error EcdsaPrivateKey :=
  if pk.id ≠ PKeyId.EC then .error Error.Ssl
  else if ¬ pk.check_ok then .error Error.Ssl
  else
    match pk.curve_name with
    | none => .error Error.UnsupportedOrInvalidKey
    | some curve =>
        match EcdsaAlgorithm.from_curve curve with
        | .error e => .error e
        | .ok algorithm => .ok { private_key := pk, algorithm := algorithm }

/-- `EcdsaPrivateKey::from_pem` (ecdsa.rs lines 119-122).  `parse` is the
OpenSSL `PKey::private_key_from_pem` primitive. -/
def EcdsaPrivateKey.from_pem (parse : List Nat → Except Error PKeyModel)
    (pem : List Nat) : Except Error EcdsaPrivateKey :=
  match parse pem with
  | .error e => .error e
  | .ok pk => EcdsaPrivateKey.from_pkey pk

/-- `EcdsaPublicKey::from_pkey` (ecdsa.rs lines 151-165), same shape as the
private-key version. -/
def EcdsaPublicKey.from_pkey (pkey : PKeyModel) : Except Error EcdsaPublicKey :=
  if pkey.id ≠ PKeyId.EC then .error Error.Ssl
  else if ¬ pkey.check_ok then .error Error.Ssl
  else
    match pkey.curve_name with
    | none => .error Error.UnsupportedOrInvalidKey
    | some curve =>
        match EcdsaAlgorithm.from_curve curve with
        | .error e => .error e
        | .ok algorithm => .ok { public_key := pkey, algorithm := algorithm }

/-- `EcdsaPublicKey::from_pem` (ecdsa.rs lines 167-170). -/
def EcdsaPublicKey.from_pem (parse : List Nat → Except Error PKeyModel)
    (pem : List Nat) : Except Error EcdsaPublicKey :=
  match parse pem with
  | .error e => .error e
  | .ok pk => EcdsaPublicKey.from_pkey pk

/-- `EcdsaPublicKey::from_coordinates` (ecdsa.rs lines 187-198).  `mk` is
the OpenSSL `EcKey::from_public_key_affine_coordinates` primitive (curve,
x bytes, y bytes); its failure, and a `check_key` failure, surface as
OpenSSL errors. -/
def EcdsaPublicKey.from_coordinates (mk : Nid → List Nat → List Nat → Except Error PKeyModel)
    (x y : List Nat) (algorithm : EcdsaAlgorithm) : Except Error EcdsaPublicKey :=
  match mk algorithm.curve x y with
  | .error e => .error e
  | .ok k =>
      if ¬ k.check_ok then .error Error.Ssl
      else .ok { public_key := k, algorithm := algorithm }

/-- Rust `buf[start..start+src.len()].copy_from_slice(src)` on a list:
replace the slice of `buf` starting at `start` by `src`. -/
def setSlice (buf : List Nat) (start : Nat) (src : List Nat) : List Nat :=
  buf.take start ++ src ++ buf.drop (start + src.length)

/-- The fixed-length encoding step at the end of `sign`
(ecdsa.rs lines 210-221): a zeroed buffer of `sig_len` bytes, with `r`
right-aligned in the first half and `s` right-aligned in the second half.
`r` and `s` are the minimal big-endian bytes returned by
`sig.r().to_vec()` / `sig.s().to_vec()`. -/
def sign_encode (alg : EcdsaAlgorithm) (r s : List Nat) : List Nat :=
  let len := alg.sig_len
  let half := len / 2
  setSlice (setSlice (List.replicate len 0) (half - r.length) r) (len - s.length) s

/-- Rust `Iterator::position`: index of the first element satisfying `p`. -/
def position (p : Nat → Bool) : List Nat → Option Nat
  | [] => none
  | x :: xs => if p x then some 0 else (position p xs).map (· + 1)

/-- Big-endian value of a byte string, as `BigNum::from_slice` reads it. -/
def beVal (bs : List Nat) : Nat :=
  bs.foldl (fun acc b => acc * 256 + b) 0

/-- Outcome of the pure decoding prefix of `es256_verify`: the recovered
`(r, s)` halves, a `VerificationError`, or a Rust panic (out-of-range
slice index). -/
inductive DecodeResult where
  | ok (r s : List Nat)
  | err
  | panic
  deriving DecidableEq, Repr

/-- The signature-decoding prefix of `es256_verify` (ecdsa.rs lines
248-254): reject a wrong-length signature; find the first nonzero byte of
the WHOLE signature (falling back to `half - 1`) and slice from there to
`half` to obtain `r` — the slice `&sig[rStart..half]` panics when
`rStart > half`; then strip the second half independently to obtain `s`. -/
def decode_rs (alg : EcdsaAlgorithm) (sig : List Nat) : DecodeResult :=
  if sig.length ≠ alg.sig_len then .err
  else
    let half := alg.sig_len / 2
    let rStart := (position (fun x => x != 0) sig).getD (half - 1)
    if half < rStart then .panic
    else
      let r := (sig.take half).drop rStart
      let sH := sig.drop half
      let sStart := (position (fun x => x != 0) sH).getD (half - 1)
      .ok r (sH.drop sStart)

/-- Result of a `verify` call: success, an error, or a Rust panic. -/
inductive VerifyOutcome where
  | ok
  | err (e : Error)
  | panic
  deriving DecidableEq, Repr

/-- `es256_verify` (ecdsa.rs lines 242-265).  `crypto` is the OpenSSL
structured-signature verification (`Verifier::verify_oneshot` on the DER
encoding of the recovered `(r, s)` pair, with the key already applied): it
depends on the integer values of `r` and `s` and on the payload `v`. -/
def es256_verify (alg : EcdsaAlgorithm) (crypto : Nat → Nat → List Nat → Bool)
    (v sig : List Nat) : VerifyOutcome :=
  match decode_rs alg sig with
  | .err => .err Error.VerificationError
  | .panic => .panic
  | .ok r s =>
      if crypto (beVal r) (beVal s) v then .ok else .err Error.VerificationError

/-- `<EcdsaPublicKey as VerificationKey>::verify` (ecdsa.rs lines
291-298): reject a mismatched algorithm name, then delegate to
`es256_verify`. -/
def EcdsaPublicKey.verify (key : EcdsaPublicKey) (crypto : Nat → Nat → List Nat → Bool)
    (v sig : List Nat) (alg : String) : VerifyOutcome :=
  if alg ≠ key.algorithm.name then .err Error.VerificationError
  else es256_verify key.algorithm crypto v sig

/-- `<EcdsaPrivateKey as VerificationKey>::verify` (ecdsa.rs lines
267-275), identical logic on the private key. -/
def EcdsaPrivateKey.verify (key : EcdsaPrivateKey) (crypto : Nat → Nat → List Nat → Bool)
    (v sig : List Nat) (alg : String) : VerifyOutcome :=
  if alg ≠ key.algorithm.name then .err Error.VerificationError
  else es256_verify key.algorithm crypto v sig

/-- OpenSSL `BigNum::to_vec` (BN_bn2bin): the minimal big-endian byte
string of a nonnegative integer (base-256 digits, most significant first,
no leading zero); zero gives the empty string. -/
def toVecMin (n : Nat) : List Nat :=
  (Nat.digits 256 n).reverse

/-- One character of the URL-safe base64 alphabet (RFC 4648 §5). -/
def b64Char (n : Nat) : Char :=
  if n < 26 then Char.ofNat (65 + n)
  else if n < 52 then Char.ofNat (97 + (n - 26))
  else if n < 62 then Char.ofNat (48 + (n - 52))
  else if n = 62 then Char.ofNat 45
  else Char.ofNat 95

/-- Base64 encoding of a byte string, three bytes to four characters, with
no padding for a trailing group of one or two bytes. -/
def b64EncBytes : List Nat → List Char
  | [] => []
  | [a] => [b64Char (a / 4), b64Char (a % 4 * 16)]
  | [a, b] => [b64Char (a / 4), b64Char (a % 4 * 16 + b / 16), b64Char (b % 16 * 4)]
  | a :: b :: c :: rest =>
      b64Char (a / 4) :: b64Char (a % 4 * 16 + b / 16) ::
      b64Char (b % 16 * 4 + c / 64) :: b64Char (c % 64) :: b64EncBytes rest

/-- `base64::encode_config(_, url_safe_trailing_bits())`: URL-safe
alphabet, no padding (the config built in `lib.rs`). -/
def base64url_no_pad (bs : List Nat) : String :=
  String.mk (b64EncBytes bs)

/-- Modelled from the spec: the JWK value object (`Jwk` in `jwk.rs`, not
among the shown sources), restricted to the fields the ECDSA export sets. -/
structure Jwk where
  kty : String
  use_ : Option String
  alg : Option String
  crv : Option String
  x : Option String
  y : Option String
  deriving DecidableEq, Repr

/-- `EcdsaPrivateKey::coordinates` / `EcdsaPublicKey::coordinates`
(ecdsa.rs lines 133-141 and 177-185): the affine coordinates, whose
integer values `xVal` and `yVal` are produced by the OpenSSL
`affine_coordinates` primitive, are each serialized with `BigNum::to_vec`. -/
def coordinates (xVal yVal : Nat) : List Nat × List Nat :=
  (toVecMin xVal, toVecMin yVal)

/-- `public_key_to_jwk` (ecdsa.rs lines 224-235, repeated at 277-288 and
300-311): build the JWK from `coordinates()`, base64url-encoding the raw
coordinate bytes without padding. -/
def public_key_to_jwk (algorithm : EcdsaAlgorithm) (xVal yVal : Nat) : Jwk :=
  let c := coordinates xVal yVal
  { kty := "EC"
    use_ := some "sig"
    alg := some algorithm.name
    crv := some algorithm.curve_name
    x := some (base64url_no_pad c.1)
    y := some (base64url_no_pad c.2) }

/-- Modelled from the spec: the RSA algorithm choice a caller supplies for
RSA keys (`RsaAlgorithm` in `rsa.rs`, not among the shown sources); RSA key
material does not itself encode a hash/algorithm choice. -/
inductive RsaAlgorithm where
  | RS256
  | RS384
  | RS512
  | PS256
  | PS384
  | PS512
  deriving DecidableEq, Repr

/-- Modelled from the spec: `RsaPrivateKey` (`rsa.rs`, not among the shown
sources) wraps the handle together with the caller-supplied algorithm. -/
structure RsaPrivateKey where
  private_key : PKeyModel
  algorithm : RsaAlgorithm
  deriving DecidableEq, Repr

/-- Modelled from the spec: `RsaPrivateKey::from_pkey` (`rsa.rs`, not among
the shown sources) stores the handle and the caller-supplied
`if_rsa_algorithm`. -/
def RsaPrivateKey.from_pkey (pk : PKeyModel) (algorithm : RsaAlgorithm) :
    Except Error RsaPrivateKey :=
  .ok { private_key := pk, algorithm := algorithm }

/-- Modelled from the spec: `Ed25519PrivateKey` (`eddsa.rs`, not among the
shown sources); Ed25519 keys have a fixed algorithm, so only the handle is
stored. -/
structure Ed25519PrivateKey where
  private_key : PKeyModel
  deriving DecidableEq, Repr

/-- Modelled from the spec: `Ed25519PrivateKey::from_pkey` (`eddsa.rs`, not
among the shown sources) wraps the handle. -/
def Ed25519PrivateKey.from_pkey (pk : PKeyModel) : Except Error Ed25519PrivateKey :=
  .ok { private_key := pk }

/-- The `SomePrivateKey` enum of some.rs (lines 15-19). -/
inductive SomePrivateKey where
  | Ed25519 (k : Ed25519PrivateKey)
  | Ecdsa (k : EcdsaPrivateKey)
  | Rsa (k : RsaPrivateKey)
  deriving DecidableEq, Repr

/-- `SomePrivateKey::from_pem` (some.rs lines 36-54): parse the PEM, then
dispatch on `pk.id()` — RSA keys get the caller-supplied
`if_rsa_algorithm`, EC and Ed25519 keys are respectively wrapped with the
algorithm deduced from the key, and any other id is
`UnsupportedOrInvalidKey`. -/
def SomePrivateKey.from_pem (parse : List Nat → Except Error PKeyModel)
    (pem : List Nat) (if_rsa_algorithm : RsaAlgorithm) : Except Error SomePrivateKey :=
  match parse pem with
  | .error e => .error e
  | .ok pk =>
    if pk.id = PKeyId.RSA then
      match RsaPrivateKey.from_pkey pk if_rsa_algorithm with
      | .error e => .error e
      | .ok k => .ok (SomePrivateKey.Rsa k)
    else if pk.id = PKeyId.EC then
      match EcdsaPrivateKey.from_pkey pk with
      | .error e => .error e
      | .ok k => .ok (SomePrivateKey.Ecdsa k)
    else if pk.id = PKeyId.ED25519 then
      match Ed25519PrivateKey.from_pkey pk with
      | .error e => .error e
      | .ok k => .ok (SomePrivateKey.Ed25519 k)
    else .error Error.UnsupportedOrInvalidKey

/-! ## Helper lemmas -/

theorem sig_len_even (alg : EcdsaAlgorithm) : alg.sig_len = 2 * (alg.sig_len / 2) := by
  cases alg <;> rfl

/-- The two `copy_from_slice` writes of `sign` produce the concatenation of
the two zero-padded halves, whenever `r` and `s` fit in a half. -/
theorem encode_concat (L half : Nat) (r s : List Nat) (hL : L = 2 * half)
    (hr : r.length ≤ half) (hs : s.length ≤ half) :
    setSlice (setSlice (List.replicate L 0) (half - r.length) r) (L - s.length) s =
      List.replicate (half - r.length) 0 ++ r ++
        (List.replicate (half - s.length) 0 ++ s) := by
  subst hL
  unfold setSlice
  rw [List.take_replicate, List.drop_replicate]
  have e1 : min (half - r.length) (2 * half) = half - r.length := by omega
  have e2 : half - r.length + r.length = half := by omega
  rw [e1, e2]
  have e3 : 2 * half - half = half := by omega
  rw [e3]
  have hlen : (List.replicate (half - r.length) 0 ++ r ++ List.replicate half 0).length
      = 2 * half := by
    simp [List.length_append, List.length_replicate]
    omega
  have e4 : 2 * half - s.length + s.length = 2 * half := by omega
  rw [e4, List.drop_eq_nil_of_le (by rw [hlen])]
  rw [List.take_append_eq_append_take]
  have e5 : (List.replicate (half - r.length) 0 ++ r).length = half := by
    simp only [List.length_append, List.length_replicate]
    omega
  rw [List.take_of_length_le (by rw [e5]; omega), e5, List.take_replicate]
  have e7 : min (2 * half - s.length - half) half = half - s.length := by omega
  rw [e7]
  simp [List.append_assoc]

/-- `sign`'s fixed-length encoding, in closed form. -/
theorem sign_encode_eq (alg : EcdsaAlgorithm) (r s : List Nat)
    (hr : r.length ≤ alg.sig_len / 2) (hs : s.length ≤ alg.sig_len / 2) :
    sign_encode alg r s =
      List.replicate (alg.sig_len / 2 - r.length) 0 ++ r ++
        (List.replicate (alg.sig_len / 2 - s.length) 0 ++ s) := by
  unfold sign_encode
  exact encode_concat alg.sig_len (alg.sig_len / 2) r s (sig_len_even alg) hr hs

/-- Rust `Iterator::position` on a run of zeros followed by a nonzero
byte finds exactly the end of the run. -/
theorem position_replicate_zero_cons (n x : Nat) (hx : x ≠ 0) (xs : List Nat) :
    position (fun b => b != 0) (List.replicate n 0 ++ x :: xs) = some n := by
  induction n with
  | zero =>
      simp only [List.replicate_zero, List.nil_append, position]
      simp [hx]
  | succ k ih =>
      rw [List.replicate_succ, List.cons_append]
      simp only [position]
      simp [ih]

/-- Rust `Iterator::position` finds nothing in a run of zeros. -/
theorem position_replicate_zero (n : Nat) :
    position (fun x => x != 0) (List.replicate n 0) = none := by
  induction n with
  | zero => rfl
  | succ k ih => simp [List.replicate_succ, position, ih]

/-- Decoding a signature made of two zero-padded halves whose payloads
start with a nonzero byte recovers exactly the two payloads. -/
theorem decode_concat (alg : EcdsaAlgorithm) (rh sh : Nat) (rt st : List Nat)
    (hrh : rh ≠ 0) (hsh : sh ≠ 0)
    (hr : rt.length + 1 ≤ alg.sig_len / 2) (hs : st.length + 1 ≤ alg.sig_len / 2) :
    decode_rs alg
      (List.replicate (alg.sig_len / 2 - (rt.length + 1)) 0 ++ (rh :: rt) ++
        (List.replicate (alg.sig_len / 2 - (st.length + 1)) 0 ++ (sh :: st))) =
      .ok (rh :: rt) (sh :: st) := by
  have hL := sig_len_even alg
  set Zr : List Nat := List.replicate (alg.sig_len / 2 - (rt.length + 1)) 0 with hZrdef
  set Zs : List Nat := List.replicate (alg.sig_len / 2 - (st.length + 1)) 0 with hZsdef
  have hZr : Zr.length = alg.sig_len / 2 - (rt.length + 1) := by
    rw [hZrdef]; exact List.length_replicate _ _
  have hZs : Zs.length = alg.sig_len / 2 - (st.length + 1) := by
    rw [hZsdef]; exact List.length_replicate _ _
  have hA : (Zr ++ (rh :: rt)).length = alg.sig_len / 2 := by
    simp only [List.length_append, List.length_cons, hZr]
    omega
  have hlen : (Zr ++ (rh :: rt) ++ (Zs ++ (sh :: st))).length = alg.sig_len := by
    simp only [List.length_append, List.length_cons, hZr, hZs]
    omega
  have hassoc : Zr ++ (rh :: rt) ++ (Zs ++ (sh :: st)) =
      Zr ++ (rh :: (rt ++ (Zs ++ (sh :: st)))) := by
    simp [List.append_assoc]
  have hpos : position (fun x => x != 0) (Zr ++ (rh :: rt) ++ (Zs ++ (sh :: st))) =
      some (alg.sig_len / 2 - (rt.length + 1)) := by
    rw [hassoc, hZrdef]
    exact position_replicate_zero_cons _ rh hrh _
  have hposS : position (fun x => x != 0) (Zs ++ (sh :: st)) =
      some (alg.sig_len / 2 - (st.length + 1)) := by
    rw [hZsdef]
    exact position_replicate_zero_cons _ sh hsh _
  have htake : (Zr ++ (rh :: rt) ++ (Zs ++ (sh :: st))).take (alg.sig_len / 2) =
      Zr ++ (rh :: rt) := List.take_left' hA
  have hdropHalf : (Zr ++ (rh :: rt) ++ (Zs ++ (sh :: st))).drop (alg.sig_len / 2) =
      Zs ++ (sh :: st) := List.drop_left' hA
  have hdropR : (Zr ++ (rh :: rt)).drop (alg.sig_len / 2 - (rt.length + 1)) = rh :: rt :=
    List.drop_left' hZr
  have hdropS : (Zs ++ (sh :: st)).drop (alg.sig_len / 2 - (st.length + 1)) = sh :: st :=
    List.drop_left' hZs
  have hnolt : ¬ (alg.sig_len / 2 < alg.sig_len / 2 - (rt.length + 1)) := by omega
  simp only [decode_rs, hlen, ne_eq, not_true_eq_false, if_false, hpos, Option.getD_some,
    hnolt, htake, hdropHalf, hposS, hdropS, hdropR]

/-- Decoding a signature whose first-half payload starts with a nonzero
byte and whose second half is entirely zero recovers the payload and the
single zero byte at the last position of the second half (the
`unwrap_or(half_len - 1)` fallback of the s-half scan). -/
theorem decode_concat_szero (alg : EcdsaAlgorithm) (rh : Nat) (rt : List Nat)
    (hrh : rh ≠ 0) (hr : rt.length + 1 ≤ alg.sig_len / 2) :
    decode_rs alg
      (List.replicate (alg.sig_len / 2 - (rt.length + 1)) 0 ++ (rh :: rt) ++
        (List.replicate (alg.sig_len / 2 - 1) 0 ++ [0])) = .ok (rh :: rt) [0] := by
  have hL := sig_len_even alg
  have hhalfpos : 1 ≤ alg.sig_len / 2 := by omega
  set Zr : List Nat := List.replicate (alg.sig_len / 2 - (rt.length + 1)) 0 with hZrdef
  set Zs : List Nat := List.replicate (alg.sig_len / 2 - 1) 0 with hZsdef
  have hZr : Zr.length = alg.sig_len / 2 - (rt.length + 1) := by
    rw [hZrdef]; exact List.length_replicate _ _
  have hZs : Zs.length = alg.sig_len / 2 - 1 := by
    rw [hZsdef]; exact List.length_replicate _ _
  have hA : (Zr ++ (rh :: rt)).length = alg.sig_len / 2 := by
    simp only [List.length_append, List.length_cons, hZr]
    omega
  have hlen : (Zr ++ (rh :: rt) ++ (Zs ++ [0])).length = alg.sig_len := by
    simp only [List.length_append, List.length_cons, List.length_nil, hZr, hZs]
    omega
  have hassoc : Zr ++ (rh :: rt) ++ (Zs ++ [0]) = Zr ++ (rh :: (rt ++ (Zs ++ [0]))) := by
    simp [List.append_assoc]
  have hpos : position (fun x => x != 0) (Zr ++ (rh :: rt) ++ (Zs ++ [0])) =
      some (alg.sig_len / 2 - (rt.length + 1)) := by
    rw [hassoc, hZrdef]
    exact position_replicate_zero_cons _ rh hrh _
  have hs0 : Zs ++ [0] = List.replicate (alg.sig_len / 2) 0 := by
    rw [hZsdef, ← List.replicate_succ']
    congr 1
    omega
  have hposS : position (fun x => x != 0) (Zs ++ [0]) = none := by
    rw [hs0]
    exact position_replicate_zero _
  have htake : (Zr ++ (rh :: rt) ++ (Zs ++ [0])).take (alg.sig_len / 2) =
      Zr ++ (rh :: rt) := List.take_left' hA
  have hdropHalf : (Zr ++ (rh :: rt) ++ (Zs ++ [0])).drop (alg.sig_len / 2) =
      Zs ++ [0] := List.drop_left' hA
  have hdropR : (Zr ++ (rh :: rt)).drop (alg.sig_len / 2 - (rt.length + 1)) = rh :: rt :=
    List.drop_left' hZr
  have hdropS : (Zs ++ [0]).drop (alg.sig_len / 2 - 1) = [0] := List.drop_left' hZs
  have hnolt : ¬ (alg.sig_len / 2 < alg.sig_len / 2 - (rt.length + 1)) := by omega
  simp only [decode_rs, hlen, ne_eq, not_true_eq_false, if_false, hpos, Option.getD_some,
    hnolt, htake, hdropHalf, hposS, Option.getD_none, hdropS, hdropR]

/-! ## C6 and C8 -/

/-- C6: for every message, `sign` returns a buffer of exactly the
algorithm's fixed signature length — 64 bytes for ES256, 96 for ES384,
132 for ES512 — consisting of `r`'s bytes right-aligned (left-zero-padded)
in the first half and `s`'s bytes right-aligned in the second half; here
`r` and `s` are the magnitude bytes the signing primitive produced, which
never exceed half the signature length. -/
theorem sign_fixed_length_layout (alg : EcdsaAlgorithm) (r s : List Nat)
    (hr : r.length ≤ alg.sig_len / 2) (hs : s.length ≤ alg.sig_len / 2) :
    (sign_encode alg r s).length =
      (match alg with | .ES256 => 64 | .ES384 => 96 | .ES512 => 132) ∧
    sign_encode alg r s =
      List.replicate (alg.sig_len / 2 - r.length) 0 ++ r ++
        (List.replicate (alg.sig_len / 2 - s.length) 0 ++ s) := by
  have he := sign_encode_eq alg r s hr hs
  refine ⟨?_, he⟩
  rw [he]
  simp only [List.length_append, List.length_replicate]
  cases alg <;> (simp only [EcdsaAlgorithm.sig_len] at hr hs ⊢) <;> omega

theorem sign_fixed_length_layout_witness :
    (sign_encode .ES256 [1] [2]).length = 64 ∧
    sign_encode .ES256 [1] [2] =
      List.replicate 31 0 ++ [1] ++ (List.replicate 31 0 ++ [2]) := by
  have h := sign_fixed_length_layout .ES256 [1] [2] (by decide) (by decide)
  simpa using h

/-- C8: algorithm ↔ curve is a bijection on {ES256, ES384, ES512}: mapping
an algorithm to its curve and back yields the same algorithm, no two
algorithms share a curve, and both the curve-id and the curve-name lookups
fail with `UnsupportedOrInvalidKey` on every curve outside
{P-256, P-384, P-521}. -/
theorem algorithm_curve_bijection :
    (∀ a : EcdsaAlgorithm, EcdsaAlgorithm.from_curve a.curve = .ok a) ∧
    (∀ a b : EcdsaAlgorithm, a.curve = b.curve → a = b) ∧
    (∀ n : Nid, n ≠ Nid.X9_62_PRIME256V1 → n ≠ Nid.SECP384R1 → n ≠ Nid.SECP521R1 →
      EcdsaAlgorithm.from_curve n = .error Error.UnsupportedOrInvalidKey) ∧
    (∀ s : String, s ≠ "P-256" → s ≠ "P-384" → s ≠ "P-521" →
      EcdsaAlgorithm.from_curve_name s = .error Error.UnsupportedOrInvalidKey) := by
  refine ⟨?_, ?_, ?_, ?_⟩
  · intro a; cases a <;> rfl
  · intro a b
    cases a <;> cases b <;> intro h <;> first | rfl | exact absurd h (by decide)
  · intro n h1 h2 h3
    simp [EcdsaAlgorithm.from_curve, h1, h2, h3]
  · intro s h1 h2 h3
    simp [EcdsaAlgorithm.from_curve_name, h1, h2, h3]

theorem algorithm_curve_bijection_witness :
    EcdsaAlgorithm.from_curve Nid.SECP256K1 = .error Error.UnsupportedOrInvalidKey ∧
    EcdsaAlgorithm.from_curve_name "secp256k1" = .error Error.UnsupportedOrInvalidKey :=
  ⟨algorithm_curve_bijection.2.2.1 Nid.SECP256K1 (by decide) (by decide) (by decide),
   algorithm_curve_bijection.2.2.2 "secp256k1" (by decide) (by decide) (by decide)⟩

/-! ## C1: signature codec round trip -/

/-- C1 counterexample: with `r` the one-byte string `[0]` (the minimal
representation of the integer 0, length 1 ≤ 32) and `s = [1]`, decoding
the encoding of `(r, s)` does not give `(r, s)` back — it panics, because
the decoder looks for the first nonzero byte of the whole signature and
finds it inside the second half, at index 63 > 32. -/
theorem sig_codec_round_trip_fails_on_zero_r :
    decode_rs .ES256 (sign_encode .ES256 [0] [1]) = .panic ∧
    decode_rs .ES256 (sign_encode .ES256 [0] [1]) ≠ .ok [0] [1] := by
  decide

/-- C1 amended: the round trip `decode (encode (r, s)) = (r, s)` holds for
every `r` given as a nonempty byte string of length at most `L/2` whose
leading byte is nonzero (the minimal representation of an integer ≥ 1,
which valid ECDSA `r` always is) and every `s` of length at most `L/2`
that either has a nonzero leading byte or is the single zero byte `[0]`.
`encode` is total under the length precondition, and `decode` rejects
wrong-length input (see the error case of `decode_rs`).  The round trip
does not extend to every minimal representation of zero in the `r`
position: at `r = [0]`, `s = [1]` the decoder panics (see the
counterexample). -/
theorem sig_codec_round_trip (alg : EcdsaAlgorithm) (rh : Nat) (rt s : List Nat)
    (hrh : rh ≠ 0) (hr : (rh :: rt).length ≤ alg.sig_len / 2)
    (hs : s.length ≤ alg.sig_len / 2)
    (hsok : (∃ sh st, s = sh :: st ∧ sh ≠ 0) ∨ s = [0]) :
    decode_rs alg (sign_encode alg (rh :: rt) s) = .ok (rh :: rt) s := by
  rw [sign_encode_eq alg _ _ hr hs]
  have hr1 : rt.length + 1 ≤ alg.sig_len / 2 := by
    simpa using hr
  rcases hsok with ⟨sh, st, rfl, hsh⟩ | rfl
  · have hs1 : st.length + 1 ≤ alg.sig_len / 2 := by
      simpa using hs
    have h := decode_concat alg rh sh rt st hrh hsh hr1 hs1
    simpa using h
  · have h := decode_concat_szero alg rh rt hrh hr1
    simpa using h

theorem sig_codec_round_trip_witness :
    decode_rs .ES256 (sign_encode .ES256 [2] [3]) = .ok [2] [3] ∧
    decode_rs .ES256 (sign_encode .ES256 [2] [0]) = .ok [2] [0] :=
  ⟨sig_codec_round_trip .ES256 2 [] [3] (by decide) (by decide) (by decide)
      (Or.inl ⟨3, [], rfl, by decide⟩),
   sig_codec_round_trip .ES256 2 [] [0] (by decide) (by decide) (by decide)
      (Or.inr rfl)⟩

/-! ## C2 and C3: the decoder's first-half stripping bug -/

/-- C2 is violated by the code: a well-formed 64-byte ES256 signature
whose first half is entirely zero and whose first nonzero byte sits at
index 33 makes `verify` panic (the slice `&sig[33..32]` in
`es256_verify`), instead of returning an error value. -/
theorem verify_panics_on_zero_first_half :
    EcdsaPublicKey.verify
      { public_key := { id := PKeyId.EC, curve_name := some Nid.X9_62_PRIME256V1,
                        check_ok := true },
        algorithm := .ES256 }
      (fun _ _ _ => true) []
      (List.replicate 33 0 ++ 1 :: List.replicate 30 0) "ES256" = .panic := by
  decide

/-- C3 is violated by the code: the first half is not stripped
independently of the second.  On a 64-byte ES256 signature whose first
half is all zero and whose second half starts with a nonzero byte, the
decoder reconstructs `r` as the EMPTY byte string (the first nonzero byte
of the whole signature is at index 32), not as the single zero byte at
index 31 that the claim requires. -/
theorem decode_rs_empty_r_on_zero_first_half :
    decode_rs .ES256 (List.replicate 32 0 ++ 1 :: List.replicate 31 0) =
      .ok [] (1 :: List.replicate 31 0) := by
  decide

/-! ## C4: verify's error cases -/

theorem decode_rs_err_of_length (alg : EcdsaAlgorithm) (sig : List Nat)
    (h : sig.length ≠ alg.sig_len) : decode_rs alg sig = .err := by
  simp [decode_rs, h]

theorem decode_rs_length_of_ok (alg : EcdsaAlgorithm) (sig : List Nat) (r s : List Nat)
    (h : decode_rs alg sig = .ok r s) : sig.length = alg.sig_len := by
  by_contra hlen
  rw [decode_rs_err_of_length alg sig hlen] at h
  exact DecodeResult.noConfusion h

/-- C4: `verify` on an ECDSA key fails in exactly three cases — claimed
algorithm name differing from the key's (checked first: the result is
`VerificationError` for every signature, payload and crypto oracle),
signature length differing from the fixed length (checked next, again for
every crypto oracle), or the cryptographic check itself failing — and
every error it ever returns is the single kind `VerificationError`. -/
theorem verify_error_cases (key : EcdsaPublicKey) (crypto : Nat → Nat → List Nat → Bool)
    (v sig : List Nat) (alg : String) :
    (∀ e, key.verify crypto v sig alg = .err e → e = Error.VerificationError) ∧
    (alg ≠ key.algorithm.name →
      key.verify crypto v sig alg = .err Error.VerificationError) ∧
    (alg = key.algorithm.name → sig.length ≠ key.algorithm.sig_len →
      key.verify crypto v sig alg = .err Error.VerificationError) ∧
    (∀ r s, alg = key.algorithm.name → decode_rs key.algorithm sig = .ok r s →
      (key.verify crypto v sig alg = .err Error.VerificationError ↔
        crypto (beVal r) (beVal s) v = false)) ∧
    (key.verify crypto v sig alg = .err Error.VerificationError →
      alg ≠ key.algorithm.name ∨ sig.length ≠ key.algorithm.sig_len ∨
        ∃ r s, decode_rs key.algorithm sig = .ok r s ∧ crypto (beVal r) (beVal s) v = false) := by
  by_cases halg : alg = key.algorithm.name
  · have hv : key.verify crypto v sig alg = es256_verify key.algorithm crypto v sig := by
      simp [EcdsaPublicKey.verify, halg]
    rcases hdec : decode_rs key.algorithm sig with ⟨r, s⟩ | _ | _
    · have hlen := decode_rs_length_of_ok _ _ _ _ hdec
      by_cases hc : crypto (beVal r) (beVal s) v = true
      · have hok : key.verify crypto v sig alg = .ok := by
          rw [hv]; simp [es256_verify, hdec, hc]
        refine ⟨?_, ?_, ?_, ?_, ?_⟩
        · intro e he; rw [hok] at he; exact absurd he (by simp)
        · intro h; exact absurd halg h
        · intro _ h; exact absurd hlen h
        · intro r1 s1 _ hdec1
          cases hdec1
          rw [hok]
          simp [hc]
        · intro h; rw [hok] at h; exact absurd h (by simp)
      · have herr : key.verify crypto v sig alg = .err Error.VerificationError := by
          rw [hv]; simp [es256_verify, hdec, hc]
        refine ⟨?_, ?_, ?_, ?_, ?_⟩
        · intro e he; rw [herr] at he; injection he with h; exact h.symm
        · intro h; exact absurd halg h
        · intro _ h; exact absurd hlen h
        · intro r1 s1 _ hdec1
          cases hdec1
          rw [herr]
          simpa using hc
        · intro _
          exact Or.inr (Or.inr ⟨r, s, rfl, by simpa using hc⟩)
    · have herr : key.verify crypto v sig alg = .err Error.VerificationError := by
        rw [hv]; simp [es256_verify, hdec]
      have hlen : sig.length ≠ key.algorithm.sig_len := by
        intro hlen
        unfold decode_rs at hdec
        simp only [hlen, ne_eq, not_true_eq_false, if_false] at hdec
        split at hdec
        · exact DecodeResult.noConfusion hdec
        · exact DecodeResult.noConfusion hdec
      refine ⟨?_, ?_, ?_, ?_, ?_⟩
      · intro e he; rw [herr] at he; injection he with h; exact h.symm
      · intro h; exact absurd halg h
      · intro _ _; exact herr
      · intro r1 s1 _ hdec1; exact absurd hdec1 (by simp)
      · intro _; exact Or.inr (Or.inl hlen)
    · have hpanic : key.verify crypto v sig alg = .panic := by
        rw [hv]; simp [es256_verify, hdec]
      refine ⟨?_, ?_, ?_, ?_, ?_⟩
      · intro e he; rw [hpanic] at he; exact absurd he (by simp)
      · intro h; exact absurd halg h
      · intro _ h
        exfalso
        apply h
        by_contra hlen
        rw [decode_rs_err_of_length _ _ hlen] at hdec
        exact DecodeResult.noConfusion hdec
      · intro r1 s1 _ hdec1; exact absurd hdec1 (by simp)
      · intro h; rw [hpanic] at h; exact absurd h (by simp)
  · have herr : key.verify crypto v sig alg = .err Error.VerificationError := by
      simp [EcdsaPublicKey.verify, halg]
    refine ⟨?_, ?_, ?_, ?_, ?_⟩
    · intro e he; rw [herr] at he; injection he with h; exact h.symm
    · intro _; exact herr
    · intro h; exact absurd h halg
    · intro r1 s1 h; exact absurd h halg
    · intro _; exact Or.inl halg

theorem verify_error_cases_witness :
    EcdsaPublicKey.verify
      { public_key := { id := PKeyId.EC, curve_name := some Nid.X9_62_PRIME256V1,
                        check_ok := true },
        algorithm := .ES256 }
      (fun _ _ _ => false) [] [] "WRONG ALG" = .err Error.VerificationError :=
  (verify_error_cases _ (fun _ _ _ => false) [] [] "WRONG ALG").2.1 (by decide)

/-! ## C5: JWK coordinate encoding -/

/-- Length of the base64 encoding of a byte string of length `3k + 2`. -/
theorem b64EncBytes_length_mod2 (k : Nat) : ∀ bs : List Nat, bs.length = 3 * k + 2 →
    (b64EncBytes bs).length = 4 * k + 3 := by
  induction k with
  | zero =>
      intro bs h
      rcases bs with _ | ⟨a, _ | ⟨b, _ | ⟨c, rest⟩⟩⟩
      · simp at h
      · simp at h
      · simp [b64EncBytes]
      · exfalso; simp at h
  | succ k ih =>
      intro bs h
      rcases bs with _ | ⟨a, _ | ⟨b, _ | ⟨c, rest⟩⟩⟩
      · simp at h
      · exfalso; simp at h
      · exfalso; simp at h
      · have hr : rest.length = 3 * k + 2 := by
          simp at h
          omega
        simp only [b64EncBytes, List.length_cons]
        rw [ih rest hr]
        omega

/-- `beVal` of a reversed digit list is `Nat.ofDigits` of the list. -/
theorem beVal_reverse_ofDigits (l : List Nat) : beVal l.reverse = Nat.ofDigits 256 l := by
  induction l with
  | nil => simp [beVal, Nat.ofDigits]
  | cons d ds ih =>
      rw [List.reverse_cons]
      have hstep : beVal (ds.reverse ++ [d]) = beVal ds.reverse * 256 + d := by
        simp [beVal, List.foldl_append]
      rw [hstep, ih, Nat.ofDigits_cons]
      ring

/-- The minimal byte string reconstructs the original integer. -/
theorem beVal_toVecMin (n : Nat) : beVal (toVecMin n) = n := by
  rw [toVecMin, beVal_reverse_ofDigits, Nat.ofDigits_digits]

/-- The minimal byte string of an integer below `256 ^ w` has at most `w`
bytes. -/
theorem toVecMin_length_le (w n : Nat) (h : n < 256 ^ w) : (toVecMin n).length ≤ w := by
  rw [toVecMin, List.length_reverse]
  by_cases hn : n = 0
  · subst hn; simp
  · by_contra hlen
    push_neg at hlen
    have h1 := Nat.base_pow_length_digits_le 256 n (by norm_num) hn
    have h2 : (256 : Nat) ^ (w + 1) ≤ 256 ^ (Nat.digits 256 n).length :=
      Nat.pow_le_pow_right (by norm_num) (by omega)
    have h3 : 256 * 256 ^ w ≤ 256 * n := by
      calc 256 * 256 ^ w = 256 ^ (w + 1) := by ring
        _ ≤ 256 ^ (Nat.digits 256 n).length := h2
        _ ≤ 256 * n := h1
    omega

/-- The minimal byte string of a nonzero integer starts with a nonzero
byte. -/
theorem toVecMin_head_ne_zero (n : Nat) (hn : n ≠ 0) (h : Nat) (t : List Nat)
    (he : toVecMin n = h :: t) : h ≠ 0 := by
  have h1 : (toVecMin n).head? = some h := by rw [he]; rfl
  rw [toVecMin, List.head?_reverse] at h1
  have hnil : Nat.digits 256 n ≠ [] := Nat.digits_ne_nil_iff_ne_zero.mpr hn
  rw [List.getLast?_eq_getLast _ hnil] at h1
  have := Nat.getLast_digit_ne_zero 256 hn
  injection h1 with h2
  intro hzero
  exact this (h2.trans hzero)

/-- C5 counterexample: for an ES256 key whose x-coordinate has the value 1,
the exported JWK `x` field is not the base64url encoding of ANY 32-byte
string — the code encodes the minimal one-byte string `[1]`
(`BigNum::to_vec` strips leading zeros), so the encoding is 2 characters
long where a 32-byte string would give 43. -/
theorem jwk_coordinates_not_fixed_width :
    ¬ ∃ bs : List Nat, bs.length = 32 ∧
      (public_key_to_jwk .ES256 1 1).x = some (base64url_no_pad bs) := by
  rintro ⟨bs, h32, hx⟩
  have hx1 : (public_key_to_jwk .ES256 1 1).x = some (base64url_no_pad (toVecMin 1)) := rfl
  rw [hx1] at hx
  have hx2 : base64url_no_pad (toVecMin 1) = base64url_no_pad bs := Option.some.inj hx
  have hdata : b64EncBytes (toVecMin 1) = b64EncBytes bs := by
    have h := congrArg String.data hx2
    simpa [base64url_no_pad] using h
  have hlen := congrArg List.length hdata
  have hd : Nat.digits 256 1 = [1] := by
    rw [Nat.digits_def' (by norm_num : (1:ℕ) < 256) (by norm_num)]
    norm_num
  have htv : toVecMin 1 = [1] := by rw [toVecMin, hd]; rfl
  have h1 : (b64EncBytes (toVecMin 1)).length = 2 := by rw [htv]; rfl
  have h2 : (b64EncBytes bs).length = 43 := b64EncBytes_length_mod2 10 bs (by omega)
  omega

/-- C5 amended: the `x` and `y` fields of the exported JWK are
base64url-no-padding encodings of the MINIMAL big-endian coordinate byte
strings (leading zero bytes stripped by `BigNum::to_vec`, an all-zero
coordinate giving the empty string): each encoded byte string has length
at most the curve's field size (32/48/66 = half the signature length),
never a leading zero byte, and reconstructs the coordinate's value. -/
theorem jwk_coordinates_minimal_bytes (alg : EcdsaAlgorithm) (xVal yVal : Nat)
    (hx : xVal < 256 ^ (alg.sig_len / 2)) (hy : yVal < 256 ^ (alg.sig_len / 2)) :
    ∃ bx bY : List Nat,
      (public_key_to_jwk alg xVal yVal).x = some (base64url_no_pad bx) ∧
      (public_key_to_jwk alg xVal yVal).y = some (base64url_no_pad bY) ∧
      bx.length ≤ alg.sig_len / 2 ∧ bY.length ≤ alg.sig_len / 2 ∧
      beVal bx = xVal ∧ beVal bY = yVal ∧
      (∀ h t, bx = h :: t → h ≠ 0) ∧ (∀ h t, bY = h :: t → h ≠ 0) := by
  refine ⟨toVecMin xVal, toVecMin yVal, rfl, rfl,
    toVecMin_length_le (alg.sig_len / 2) xVal hx,
    toVecMin_length_le (alg.sig_len / 2) yVal hy,
    beVal_toVecMin xVal, beVal_toVecMin yVal, ?_, ?_⟩
  · intro h t he
    by_cases hz : xVal = 0
    · subst hz
      rw [show toVecMin 0 = [] from by rw [toVecMin, Nat.digits_zero]; rfl] at he
      exact List.noConfusion he
    · exact toVecMin_head_ne_zero xVal hz h t he
  · intro h t he
    by_cases hz : yVal = 0
    · subst hz
      rw [show toVecMin 0 = [] from by rw [toVecMin, Nat.digits_zero]; rfl] at he
      exact List.noConfusion he
    · exact toVecMin_head_ne_zero yVal hz h t he

theorem jwk_coordinates_minimal_bytes_witness :
    ∃ bx bY : List Nat,
      (public_key_to_jwk .ES256 1 0).x = some (base64url_no_pad bx) ∧
      (public_key_to_jwk .ES256 1 0).y = some (base64url_no_pad bY) ∧
      bx.length ≤ EcdsaAlgorithm.sig_len .ES256 / 2 ∧
      bY.length ≤ EcdsaAlgorithm.sig_len .ES256 / 2 ∧
      beVal bx = 1 ∧ beVal bY = 0 ∧
      (∀ h t, bx = h :: t → h ≠ 0) ∧ (∀ h t, bY = h :: t → h ≠ 0) :=
  jwk_coordinates_minimal_bytes .ES256 1 0
    (by norm_num [EcdsaAlgorithm.sig_len]) (by positivity)

/-! ## C7, C9, C10: constructors and dispatch -/

/-- A successful curve lookup inverts `curve`. -/
theorem from_curve_ok_curve (n : Nid) (a : EcdsaAlgorithm)
    (h : EcdsaAlgorithm.from_curve n = .ok a) : a.curve = n := by
  unfold EcdsaAlgorithm.from_curve at h
  split at h
  · cases h; simp [EcdsaAlgorithm.curve, *]
  · split at h
    · cases h; simp [EcdsaAlgorithm.curve, *]
    · split at h
      · cases h; simp [EcdsaAlgorithm.curve, *]
      · exact Except.noConfusion h

/-- Inversion of a successful `EcdsaPrivateKey::from_pkey`: the handle is
stored unchanged and the algorithm came from the handle's curve. -/
theorem from_pkey_ok_inv (pk : PKeyModel) (k : EcdsaPrivateKey)
    (h : EcdsaPrivateKey.from_pkey pk = .ok k) :
    k.private_key = pk ∧ ∃ c, pk.curve_name = some c ∧
      EcdsaAlgorithm.from_curve c = .ok k.algorithm := by
  unfold EcdsaPrivateKey.from_pkey at h
  split at h
  · exact Except.noConfusion h
  split at h
  · exact Except.noConfusion h
  split at h
  · exact Except.noConfusion h
  rename_i c hc
  split at h
  · exact Except.noConfusion h
  rename_i a ha
  injection h with h
  subst h
  exact ⟨rfl, c, hc, ha⟩

/-- Inversion of a successful `EcdsaPublicKey::from_pkey`. -/
theorem pub_from_pkey_ok_inv (pk : PKeyModel) (k : EcdsaPublicKey)
    (h : EcdsaPublicKey.from_pkey pk = .ok k) :
    k.public_key = pk ∧ ∃ c, pk.curve_name = some c ∧
      EcdsaAlgorithm.from_curve c = .ok k.algorithm := by
  unfold EcdsaPublicKey.from_pkey at h
  split at h
  · exact Except.noConfusion h
  split at h
  · exact Except.noConfusion h
  split at h
  · exact Except.noConfusion h
  rename_i c hc
  split at h
  · exact Except.noConfusion h
  rename_i a ha
  injection h with h
  subst h
  exact ⟨rfl, c, hc, ha⟩

/-- C7: importing a PEM key whose curve has no supported algorithm (for
example secp256k1, or any curve id outside {P-256, P-384, P-521}) fails
with `UnsupportedOrInvalidKey` on both the private-key and the public-key
paths of PEM import, even when the key itself is algebraically valid; and every
successful EC import derives its stored algorithm from the key's own
curve — `from_pkey` takes no algorithm from the caller. -/
theorem import_unsupported_curve_rejected
    (parse : List Nat → Except Error PKeyModel) (pem : List Nat) (pk : PKeyModel) :
    (parse pem = .ok pk → pk.id = PKeyId.EC → pk.check_ok = true →
      ∀ n, pk.curve_name = some n →
        EcdsaAlgorithm.from_curve n = .error Error.UnsupportedOrInvalidKey →
        EcdsaPrivateKey.from_pem parse pem = .error Error.UnsupportedOrInvalidKey ∧
        EcdsaPublicKey.from_pem parse pem = .error Error.UnsupportedOrInvalidKey) ∧
    (∀ k, EcdsaPrivateKey.from_pkey pk = .ok k →
      ∃ c, pk.curve_name = some c ∧ EcdsaAlgorithm.from_curve c = .ok k.algorithm) ∧
    (∀ k, EcdsaPublicKey.from_pkey pk = .ok k →
      ∃ c, pk.curve_name = some c ∧ EcdsaAlgorithm.from_curve c = .ok k.algorithm) := by
  refine ⟨?_, ?_, ?_⟩
  · intro hparse hid hchk n hcurve herr
    constructor
    · unfold EcdsaPrivateKey.from_pem
      rw [hparse]
      unfold EcdsaPrivateKey.from_pkey
      simp [hid, hchk, hcurve, herr]
    · unfold EcdsaPublicKey.from_pem
      rw [hparse]
      unfold EcdsaPublicKey.from_pkey
      simp [hid, hchk, hcurve, herr]
  · intro k h
    exact (from_pkey_ok_inv pk k h).2
  · intro k h
    exact (pub_from_pkey_ok_inv pk k h).2

theorem import_unsupported_curve_rejected_witness :
    EcdsaPrivateKey.from_pem
      (fun _ => .ok { id := PKeyId.EC, curve_name := some Nid.SECP256K1, check_ok := true })
      [] = .error Error.UnsupportedOrInvalidKey ∧
    EcdsaPublicKey.from_pem
      (fun _ => .ok { id := PKeyId.EC, curve_name := some Nid.SECP256K1, check_ok := true })
      [] = .error Error.UnsupportedOrInvalidKey :=
  (import_unsupported_curve_rejected
      (fun _ => .ok { id := PKeyId.EC, curve_name := some Nid.SECP256K1, check_ok := true })
      [] { id := PKeyId.EC, curve_name := some Nid.SECP256K1, check_ok := true }).1
    rfl rfl rfl Nid.SECP256K1 rfl rfl

/-- C9: every constructor of `EcdsaPrivateKey` / `EcdsaPublicKey` —
`generate`, `from_pkey` (hence `from_pem`), and `from_coordinates` —
produces a key whose stored algorithm's curve equals the actual curve of
the wrapped key handle; for `generate` and `from_coordinates` this uses
the primitive library's contract that the handle it returns lives on the
requested curve.  No operation mutates a key after construction (all
operations in this model are pure functions of the key). -/
theorem constructor_curve_invariant :
    (∀ g alg k, (∀ c pk, g c = .ok pk → pk.curve_name = some c) →
      EcdsaPrivateKey.generate g alg = .ok k →
        k.private_key.curve_name = some k.algorithm.curve) ∧
    (∀ pk k, EcdsaPrivateKey.from_pkey pk = .ok k →
        k.private_key.curve_name = some k.algorithm.curve) ∧
    (∀ pk k, EcdsaPublicKey.from_pkey pk = .ok k →
        k.public_key.curve_name = some k.algorithm.curve) ∧
    (∀ mk x y alg k, (∀ c x1 y1 pk, mk c x1 y1 = .ok pk → pk.curve_name = some c) →
      EcdsaPublicKey.from_coordinates mk x y alg = .ok k →
        k.public_key.curve_name = some k.algorithm.curve) := by
  refine ⟨?_, ?_, ?_, ?_⟩
  · intro g alg k hg h
    unfold EcdsaPrivateKey.generate at h
    rcases hgen : g alg.curve with e | pk
    · rw [hgen] at h; exact Except.noConfusion h
    · rw [hgen] at h
      injection h with h
      subst h
      exact hg alg.curve pk hgen
  · intro pk k h
    obtain ⟨hpk, c, hc, ha⟩ := from_pkey_ok_inv pk k h
    rw [hpk, hc, from_curve_ok_curve c k.algorithm ha]
  · intro pk k h
    obtain ⟨hpk, c, hc, ha⟩ := pub_from_pkey_ok_inv pk k h
    rw [hpk, hc, from_curve_ok_curve c k.algorithm ha]
  · intro mk x y alg k hmk h
    unfold EcdsaPublicKey.from_coordinates at h
    rcases hc : mk alg.curve x y with e | pk
    · rw [hc] at h; exact Except.noConfusion h
    · rw [hc] at h
      by_cases hchk : pk.check_ok
      · simp only [hchk, not_true_eq_false, if_false] at h
        injection h with h
        subst h
        exact hmk alg.curve x y pk hc
      · simp only [hchk, not_false_eq_true, if_true] at h
        exact Except.noConfusion h

theorem constructor_curve_invariant_witness :
    ({ private_key := { id := PKeyId.EC,
                        curve_name := some (EcdsaAlgorithm.curve .ES256),
                        check_ok := true },
       algorithm := .ES256 } : EcdsaPrivateKey).private_key.curve_name
      = some (EcdsaAlgorithm.curve .ES256) :=
  constructor_curve_invariant.1
    (fun c => .ok { id := PKeyId.EC, curve_name := some c, check_ok := true })
    .ES256 _ (fun c pk h => by cases h; rfl) rfl

/-- C10: `SomePrivateKey::from_pem` constructs the variant matching the type
of the imported key: an RSA key becomes the `Rsa` variant carrying the
caller-supplied `if_rsa_algorithm`; an EC key becomes the `Ecdsa` variant
with its algorithm deduced from the key's curve; an Ed25519 key becomes
the `Ed25519` variant; any other key type fails with
`UnsupportedOrInvalidKey`; and the `if_rsa_algorithm` argument is used
only on the RSA path (the result is independent of it otherwise). -/
theorem some_private_key_from_pem_dispatch
    (parse : List Nat → Except Error PKeyModel) (pem : List Nat)
    (pk : PKeyModel) (a1 a2 : RsaAlgorithm) (hparse : parse pem = .ok pk) :
    (pk.id = PKeyId.RSA →
      SomePrivateKey.from_pem parse pem a1 =
        .ok (.Rsa { private_key := pk, algorithm := a1 })) ∧
    (pk.id = PKeyId.EC → ∀ v, SomePrivateKey.from_pem parse pem a1 = .ok v →
      ∃ k, v = .Ecdsa k ∧ EcdsaPrivateKey.from_pkey pk = .ok k ∧
        pk.curve_name = some k.algorithm.curve) ∧
    (pk.id = PKeyId.ED25519 →
      SomePrivateKey.from_pem parse pem a1 = .ok (.Ed25519 { private_key := pk })) ∧
    (pk.id ≠ PKeyId.RSA → pk.id ≠ PKeyId.EC → pk.id ≠ PKeyId.ED25519 →
      SomePrivateKey.from_pem parse pem a1 = .error Error.UnsupportedOrInvalidKey) ∧
    (pk.id ≠ PKeyId.RSA →
      SomePrivateKey.from_pem parse pem a1 = SomePrivateKey.from_pem parse pem a2) := by
  refine ⟨?_, ?_, ?_, ?_, ?_⟩
  · intro hid
    unfold SomePrivateKey.from_pem
    rw [hparse]
    simp [hid, RsaPrivateKey.from_pkey]
  · intro hid v hv
    unfold SomePrivateKey.from_pem at hv
    rw [hparse] at hv
    have hne : pk.id ≠ PKeyId.RSA := by rw [hid]; decide
    simp only [hne, if_false, hid, if_true] at hv
    rcases hk : EcdsaPrivateKey.from_pkey pk with e | k
    · rw [hk] at hv; exact Except.noConfusion hv
    · rw [hk] at hv
      injection hv with hv
      obtain ⟨hpk, c, hc, ha⟩ := from_pkey_ok_inv pk k hk
      refine ⟨k, hv.symm, rfl, ?_⟩
      rw [hc, from_curve_ok_curve c k.algorithm ha]
  · intro hid
    unfold SomePrivateKey.from_pem
    rw [hparse]
    simp [hid, PKeyId.RSA, PKeyId.EC, PKeyId.ED25519, Ed25519PrivateKey.from_pkey]
  · intro h1 h2 h3
    unfold SomePrivateKey.from_pem
    rw [hparse]
    simp [h1, h2, h3]
  · intro h1
    unfold SomePrivateKey.from_pem
    rw [hparse]
    simp [h1]

theorem some_private_key_from_pem_dispatch_witness :
    SomePrivateKey.from_pem
      (fun _ => .ok { id := PKeyId.RSA, curve_name := none, check_ok := true })
      [] RsaAlgorithm.RS256 =
      .ok (.Rsa { private_key := { id := PKeyId.RSA, curve_name := none, check_ok := true },
                  algorithm := RsaAlgorithm.RS256 }) :=
  (some_private_key_from_pem_dispatch
      (fun _ => .ok { id := PKeyId.RSA, curve_name := none, check_ok := true })
      [] { id := PKeyId.RSA, curve_name := none, check_ok := true }
      RsaAlgorithm.RS256 RsaAlgorithm.RS512 rfl).1 rfl
